import Mathlib

/-!
Verification of the recursive text splitter and the reranking subsystem of the
rag-mcp-server repository.

The embedding models strings as `List Char` (Python strings are character
sequences) and Python floats as exact rationals `ℚ`; the `1.2` soft ceiling is
embedded as the exact comparison `5 * n ≤ 6 * chunkSize`, and all numeric
comparisons are exact where the source uses IEEE doubles.  Fallible
operations return `Except String`.
-/

deriving instance DecidableEq for Except

namespace RagMcp

open scoped List

/-! ## Splitter data model (src/libs/splitter/recursive_splitter.py) -/

structure SplitterConfig where
  chunkSize : Nat
  chunkOverlap : Nat
  keepSeparator : Bool
  separators : List (List Char)
deriving Repr, DecidableEq

/-- `RecursiveSplitter.DEFAULT_SEPARATORS`: paragraph, line, sentence
terminators (Chinese then English), clause punctuation, space, character. -/
def defaultSeparators : List (List Char) :=
  [("\n\n").data, ("\n").data, ("。").data, ("！").data, ("？").data,
   (".").data, ("!").data, ("?").data, (";").data, (",").data,
   (" ").data, ([] : List Char)]

/-- Python `sep in text`: `sep` occurs as a contiguous subsequence of `text`. -/
def containsSeq (sep : List Char) : List Char → Bool
  | [] => sep.isEmpty
  | c :: rest => sep.isPrefixOf (c :: rest) || containsSeq sep rest

/-- The separator-search loop of `_split_recursive`: returns the first
separator that is empty (character tier) or occurs in the text, paired with
the remaining lower-priority separators (`separators[i+1:]`); the empty tier
resets the remainder to `[]` exactly as in the source. -/
def findSepAux (text : List Char) : List (List Char) → Option (List Char × List (List Char))
  | [] => none
  | s :: rest =>
    if s = [] then some ([], [])
    else if containsSeq s text then some (s, rest)
    else findSepAux text rest

/-- `separator = separators[-1] if separators else ""` is the default when the
loop finds nothing, with `new_separators = []`. -/
def findSep (text : List Char) (seps : List (List Char)) : List Char × List (List Char) :=
  (findSepAux text seps).getD (seps.getLastD [], [])

/-- Python `text.split(sep)` (non-overlapping, left to right), accumulator
form.  The `Nat` argument is structural-recursion fuel, always called with at
least the length of the text (every step consumes at least one character, so
the fuel-exhausted arm is unreachable from `splitOn`). -/
def splitOnAux (sep : List Char) : Nat → List Char → List Char → List (List Char)
  | _, [], acc => [acc.reverse]
  | 0, l, acc => [acc.reverse ++ l]
  | fuel + 1, c :: rest, acc =>
    if sep ≠ [] ∧ sep.isPrefixOf (c :: rest) then
      acc.reverse :: splitOnAux sep fuel ((c :: rest).drop sep.length) []
    else
      splitOnAux sep fuel rest (c :: acc)

def splitOn (sep l : List Char) : List (List Char) := splitOnAux sep l.length l []

/-- `keep_separator`: re-append the separator to every fragment but the last. -/
def appendSepButLast (sep : List Char) : List (List Char) → List (List Char)
  | [] => []
  | [x] => [x]
  | x :: y :: xs => (x ++ sep) :: appendSepButLast sep (y :: xs)

/-- `_split_text_with_separator`. -/
def splitWithSep (cfg : SplitterConfig) (text sep : List Char) : List (List Char) :=
  if sep = [] then [text]
  else
    let parts := splitOn sep text
    if cfg.keepSeparator then appendSepButLast sep parts else parts

/-- The forced character-level slice `split[i:i+chunk_size]` loop of
`_split_recursive`.  `cs = 0` is a configuration error rejected by the base
splitter's constructor and never reaches this code.  Fueled structural
recursion; `forceSlice` supplies fuel equal to the length of the fragment,
which suffices since every slice consumes at least one character. -/
def forceSliceAux (cs : Nat) : Nat → List Char → List (List Char)
  | _, [] => []
  | 0, l => [l]
  | fuel + 1, c :: rest =>
    if cs = 0 then []
    else (c :: rest).take cs :: forceSliceAux cs fuel ((c :: rest).drop cs)

def forceSlice (cs : Nat) (s : List Char) : List (List Char) :=
  forceSliceAux cs s.length s

/-- The greedy coalescing loop of `_split_recursive`.  Each element carries the
fragment together with `some sub` when the fragment is oversized (`sub` is the
pre-computed recursive split or forced slice), `none` otherwise. -/
def mergeLoop (cs : Nat) : List (List Char × Option (List (List Char))) → List Char → List (List Char)
  | [], current => if current = [] then [] else [current]
  | (s, sub) :: rest, current =>
    if current.length + s.length ≤ cs then
      mergeLoop cs rest (current ++ s)
    else
      (if current = [] then [] else [current]) ++
      match sub with
      | some subChunks => subChunks ++ mergeLoop cs rest []
      | none => mergeLoop cs rest s

/-- Python slice `l[-n:]`, including the `l[-0:] = l` quirk. -/
def pySliceLast (n : Nat) (l : List Char) : List Char :=
  if n = 0 then l else l.drop (l.length - n)

/-- `_add_overlap`.  The soft ceiling `len ≤ chunk_size * 1.2` is embedded as
the exact comparison `5 * len ≤ 6 * chunk_size`.  Note that for an interior
chunk the source concatenates the previous chunk's trailing slice
unconditionally and only guards the trailing (next-chunk) addition. -/
def addOverlap (cfg : SplitterConfig) (chunks : List (List Char)) : List (List Char) :=
  if chunks.length ≤ 1 then chunks
  else
    (List.range chunks.length).map (fun i =>
      let chunk := chunks.getD i []
      if i = 0 then
        let nextSlice := (chunks.getD (i + 1) []).take cfg.chunkOverlap
        if 5 * (chunk.length + nextSlice.length) ≤ 6 * cfg.chunkSize then
          chunk ++ nextSlice
        else chunk
      else if i = chunks.length - 1 then
        let prevSlice := pySliceLast cfg.chunkOverlap (chunks.getD (i - 1) [])
        if 5 * (prevSlice.length + chunk.length) ≤ 6 * cfg.chunkSize then
          prevSlice ++ chunk
        else chunk
      else
        let prevSlice := pySliceLast cfg.chunkOverlap (chunks.getD (i - 1) [])
        let nextSlice := (chunks.getD (i + 1) []).take cfg.chunkOverlap
        let oc := prevSlice ++ chunk
        if 5 * (oc.length + nextSlice.length) ≤ 6 * cfg.chunkSize then
          oc ++ nextSlice
        else oc)

theorem findSepAux_snd (text : List Char) :
    ∀ (seps : List (List Char)) p, findSepAux text seps = some p →
      p.2 = [] ∨ p.2.length < seps.length := by
  intro seps
  induction seps with
  | nil => intro p h; simp [findSepAux] at h
  | cons s rest ih =>
    intro p h
    simp only [findSepAux] at h
    split at h
    · cases h; left; rfl
    · split at h
      · cases h; right; simp
      · rcases ih p h with h1 | h1
        · left; exact h1
        · right; simpa using Nat.lt_succ_of_lt h1

theorem findSep_snd_lt (text : List Char) (seps : List (List Char))
    (h : (findSep text seps).2 ≠ []) : (findSep text seps).2.length < seps.length := by
  unfold findSep at *
  cases hx : findSepAux text seps with
  | none => simp [hx] at h
  | some p =>
    simp only [hx, Option.getD_some] at h ⊢
    rcases findSepAux_snd text seps p hx with h1 | h1
    · exact absurd h1 h
    · exact h1

/-- One invocation of `_split_recursive` with the recursive call abstracted
as `recurse`: pick the first applicable separator tier, split, greedily
coalesce (recursing via `recurse` into oversized fragments when
lower-priority tiers remain, force-slicing when none remain), then stitch
overlap. -/
def splitStep (cfg : SplitterConfig)
    (recurse : List (List Char) → List Char → List (List Char))
    (seps : List (List Char)) (text : List Char) : List (List Char) :=
  let fs := findSep text seps
  let splits := if fs.1 = [] then text.map (fun c => [c]) else splitWithSep cfg text fs.1
  let handleBig : List Char → List (List Char) :=
    match fs.2 with
    | [] => fun s => forceSlice cfg.chunkSize s
    | s1 :: rest2 => fun s => recurse (s1 :: rest2) s
  let annotated := splits.map (fun s =>
    (s, if cfg.chunkSize < s.length then some (handleBig s) else none))
  let good := mergeLoop cfg.chunkSize annotated []
  if 0 < cfg.chunkOverlap ∧ 1 < good.length then addOverlap cfg good else good

/-- `_split_recursive`, tying the recursion of `splitStep`.  The `Nat`
argument is structural-recursion fuel; `splitText` supplies the number of
separator tiers, which suffices because the recursive call always moves to a
strictly shorter non-empty remainder of the tier list (`findSep_snd_lt`);
the fuel-exhausted arm (which force-slices like the empty-remainder case) is
therefore unreachable with a non-empty tier remainder. -/
def splitRecursive (cfg : SplitterConfig) : Nat → List (List Char) → List Char →
    List (List Char)
  | 0, seps, text => splitStep cfg (fun _ s => forceSlice cfg.chunkSize s) seps text
  | fuel + 1, seps, text => splitStep cfg (splitRecursive cfg fuel) seps text

/-- The first index at which `pat` occurs in the list, if any. -/
def firstOcc (pat : List Char) : List Char → Option Nat
  | [] => if pat.isPrefixOf ([] : List Char) then some 0 else none
  | c :: rest =>
    if pat.isPrefixOf (c :: rest) then some 0
    else (firstOcc pat rest).map (· + 1)

def fence : List Char := ("```").data

theorem firstOcc_fence_nil : firstOcc fence [] = none := by
  simp [firstOcc, fence, List.isPrefixOf]

/-- The matches of `CODE_BLOCK_PATTERN` (regex ``` [\s\S]*? ``` non-greedy),
in order: each match starts at the next occurrence of the fence and ends at
the earliest closing fence; scanning resumes after the match.  Fueled
structural recursion (`fenceMatches` supplies the text length; each match
consumes at least six characters, so the fuel never runs out). -/
def fenceMatchesAux : Nat → List Char → List (List Char)
  | 0, _ => []
  | fuel + 1, l =>
    match firstOcc fence l with
    | none => []
    | some i =>
      match firstOcc fence (l.drop (i + 3)) with
      | none => []
      | some j =>
        (l.drop i).take (3 + j + 3) :: fenceMatchesAux fuel (l.drop (i + (3 + j + 3)))

def fenceMatches (l : List Char) : List (List Char) := fenceMatchesAux l.length l

/-- Python `s.replace(old, new, 1)`: replace the leftmost occurrence only.
An empty pattern prepends the replacement (CPython semantics); the splitter
only ever uses non-empty patterns. -/
def replaceFirst (pat repl : List Char) : List Char → List Char
  | [] => if pat = [] then repl else []
  | c :: rest =>
    if h : pat ≠ [] ∧ pat.isPrefixOf (c :: rest) then
      repl ++ (c :: rest).drop pat.length
    else if pat = [] then repl ++ c :: rest
    else c :: replaceFirst pat repl rest

/-- Python `s.replace(old, new)`: replace every non-overlapping occurrence,
left to right.  The empty-pattern case never arises (placeholders are
non-empty) and is modelled as the identity. -/
def replaceAllAux (pat repl : List Char) : Nat → List Char → List Char
  | _, [] => []
  | 0, l => l
  | fuel + 1, c :: rest =>
    if pat ≠ [] ∧ pat.isPrefixOf (c :: rest) then
      repl ++ replaceAllAux pat repl fuel ((c :: rest).drop pat.length)
    else c :: replaceAllAux pat repl fuel rest

def replaceAll (pat repl l : List Char) : List Char :=
  replaceAllAux pat repl l.length l

/-- Whitespace as stripped by Python `str.strip()` (ASCII portion). -/
def isPyWS (c : Char) : Bool :=
  c = ' ' || c = '\t' || c = '\n' || c = '\r' || c = (Char.ofNat 11) || c = (Char.ofNat 12)

def pyStrip (l : List Char) : List Char :=
  ((l.dropWhile isPyWS).reverse.dropWhile isPyWS).reverse

/-- `__CODE_BLOCK_{i}__`. -/
def placeholder (i : Nat) : List Char :=
  ("__CODE_BLOCK_").data ++ (Nat.repr i).data ++ ("__").data

/-- `RecursiveSplitter.split_text`: protect fenced code blocks behind
placeholders, split recursively, restore the blocks, and drop chunks that are
empty or whitespace-only after restoration. -/
def splitText (cfg : SplitterConfig) (text : List Char) : Except String (List (List Char)) :=
  if text = [] then Except.error "Text cannot be empty"
  else
    let codeBlocks := fenceMatches text
    let textWithPlaceholders :=
      codeBlocks.enum.foldl (fun acc p => replaceFirst p.2 (placeholder p.1) acc) text
    let chunks := splitRecursive cfg cfg.separators.length cfg.separators textWithPlaceholders
    Except.ok (chunks.filterMap (fun chunk =>
      let restored := codeBlocks.enum.foldl (fun acc p => replaceAll (placeholder p.1) p.2 acc) chunk
      if pyStrip restored = [] then none else some restored))

/-! ## Reranker data model (src/libs/reranker/base_reranker.py)

Scores (Python floats) are modelled as exact rationals; the metadata payload
(`dict[str, Any]`) is an opaque type parameter `μ`. -/

structure RerankCandidate (μ : Type) where
  id : String
  text : String
  score : Option ℚ
  metadata : Option μ
deriving DecidableEq

structure RerankResult (μ : Type) where
  id : String
  text : String
  score : ℚ
  original_rank : Int
  new_rank : Int
  metadata : Option μ
deriving DecidableEq

/-- `BaseReranker.validate_candidates`: non-empty list, pairwise-unique ids.
(The `isinstance` check is enforced statically by the embedding's types.) -/
def validateCandidates {μ : Type} (candidates : List (RerankCandidate μ)) : Except String Unit :=
  if candidates.isEmpty then Except.error "candidate list must not be empty"
  else if (candidates.map (fun c => c.id)).Nodup then Except.ok ()
  else Except.error "candidate ids must be unique"

/-- The result-construction loop of `create_results`: `new_rank` gets the
temporary value `-1`, `original_rank` comes from the supplied rank list
(walked in step with the candidates; a too-short list is an `IndexError` in
the source and never occurs in its callers). -/
def buildResults {μ : Type} : List (RerankCandidate μ × ℚ) → List Int → List (RerankResult μ)
  | [], _ => []
  | (c, s) :: rest, ranks =>
    ⟨c.id, c.text, s, ranks.headD 0, -1, c.metadata⟩ :: buildResults rest ranks.tail

/-- `results.sort(key=lambda x: x.score, reverse=True)` is a stable sort by
score descending.  A stable sort's output is uniquely determined by the key
order and the input order, so it is embedded as a stable insertion sort: an
element is inserted after exactly the elements of strictly higher score, so
that elements of equal score keep their input order. -/
def insertDesc {μ : Type} (r : RerankResult μ) : List (RerankResult μ) → List (RerankResult μ)
  | [] => [r]
  | x :: xs => if r.score < x.score then x :: insertDesc r xs else r :: x :: xs

def sortByScoreDesc {μ : Type} : List (RerankResult μ) → List (RerankResult μ)
  | [] => []
  | x :: xs => insertDesc x (sortByScoreDesc xs)

/-- `for new_rank, result in enumerate(results): result.new_rank = new_rank`. -/
def assignNewRanks {μ : Type} : Int → List (RerankResult μ) → List (RerankResult μ)
  | _, [] => []
  | i, r :: rest => { r with new_rank := i } :: assignNewRanks (i + 1) rest

/-- `BaseReranker.create_results`: check the score count, build results with
input-order original ranks by default, stable-sort by score descending, and
assign `new_rank` by final position. -/
def createResults {μ : Type} (candidates : List (RerankCandidate μ)) (scores : List ℚ)
    (originalRanks : Option (List Int)) : Except String (List (RerankResult μ)) :=
  if candidates.length ≠ scores.length then
    Except.error "candidate count does not match score count"
  else
    let ranks := originalRanks.getD ((List.range candidates.length).map Int.ofNat)
    let results := buildResults (candidates.zip scores) ranks
    let sorted := sortByScoreDesc results
    Except.ok (assignNewRanks 0 sorted)

/-- `if top_k is not None and top_k > 0: results = results[:top_k]`. -/
def applyTopK {α : Type} (topK : Option Int) (results : List α) : List α :=
  match topK with
  | some k => if 0 < k then results.take k.toNat else results
  | none => results

/-! ## Passthrough reranker (src/libs/reranker/none_reranker.py) -/

/-- The manual result-building loop shared verbatim by `NoneReranker.rerank`
and the fallback path of `CrossEncoderReranker.rerank`: original order,
`new_rank == original_rank == input position`. -/
def noneBuild {μ : Type} : List (RerankCandidate μ × ℚ) → Int → List (RerankResult μ)
  | [], _ => []
  | (c, s) :: rest, i => ⟨c.id, c.text, s, i, i, c.metadata⟩ :: noneBuild rest (i + 1)

/-- `NoneReranker.rerank`. -/
def rerankNone {μ : Type} (_query : String) (candidates : List (RerankCandidate μ))
    (topK : Option Int) : Except String (List (RerankResult μ)) :=
  match validateCandidates candidates with
  | Except.error e => Except.error e
  | Except.ok _ =>
    let scores := candidates.map (fun c => c.score.getD 0)
    let results := noneBuild (candidates.zip scores) 0
    Except.ok (applyTopK topK results)

/-! ## Scored (cross-encoder) reranker (src/libs/reranker/cross_encoder_reranker.py) -/

structure CrossConfig where
  timeout : ℚ
  batchSize : Nat
  fallbackOnError : Bool

/-- Outcome of one call to the injected scorer: either a score list together
with the elapsed wall-clock time of the blocking call, or an exception. -/
inductive ScorerOutcome where
  | ok (scores : List ℚ) (elapsed : ℚ)
  | exn (msg : String)

/-- The per-instance diagnostic fields `_last_error` / `_timeout_occurred`. -/
structure CrossState where
  lastError : Option String
  timeoutOccurred : Bool
deriving DecidableEq

/-- `_score_with_timeout`: run the scorer, report a timeout post hoc if the
elapsed time exceeded the limit, then check the score count.  Every failure
records `_last_error` (the `except` block catches the errors raised inside
the `try` as well) and re-raises wrapped in "Scoring failed". -/
def scoreWithTimeout (cfg : CrossConfig) (scorer : String → List String → ScorerOutcome)
    (query : String) (texts : List String) (st : CrossState) :
    Except String (List ℚ) × CrossState :=
  match scorer query texts with
  | ScorerOutcome.exn m =>
    (Except.error ("Scoring failed: " ++ m), { st with lastError := some m })
  | ScorerOutcome.ok scores elapsed =>
    if cfg.timeout < elapsed then
      let m := "Scoring timeout"
      (Except.error ("Scoring failed: " ++ m),
       { st with lastError := some m, timeoutOccurred := true })
    else if scores.length ≠ texts.length then
      let m := "Scorer returned wrong number of scores"
      (Except.error ("Scoring failed: " ++ m), { st with lastError := some m })
    else (Except.ok scores, st)

/-- The batching loop `for i in range(0, len(texts), self.batch_size)`.
`batchSize = 0` is a `ValueError` in Python and never configured. -/
def pyBatchesAux {α : Type} (bs : Nat) : Nat → List α → List (List α)
  | _, [] => []
  | 0, l => [l]
  | fuel + 1, x :: xs =>
    if bs = 0 then []
    else (x :: xs).take bs :: pyBatchesAux bs fuel ((x :: xs).drop bs)

def pyBatches {α : Type} (bs : Nat) (l : List α) : List (List α) :=
  pyBatchesAux bs l.length l

/-- Score every batch in order, extending `all_scores`; the first failure
aborts the loop with the failure and the state recorded so far. -/
def scoreAll (cfg : CrossConfig) (scorer : String → List String → ScorerOutcome)
    (query : String) : List (List String) → CrossState → Except String (List ℚ) × CrossState
  | [], st => (Except.ok [], st)
  | b :: rest, st =>
    match scoreWithTimeout cfg scorer query b st with
    | (Except.ok s, st1) =>
      match scoreAll cfg scorer query rest st1 with
      | (Except.ok s2, st2) => (Except.ok (s ++ s2), st2)
      | (Except.error e, st2) => (Except.error e, st2)
    | (Except.error e, st1) => (Except.error e, st1)

/-- The `except RerankerError` arm of `CrossEncoderReranker.rerank`: degrade
to original order with pre-existing scores (or 0.0) when `fallback_on_error`
is set, otherwise propagate. -/
def crossFallback {μ : Type} (cfg : CrossConfig) (candidates : List (RerankCandidate μ))
    (topK : Option Int) (e : String) (st : CrossState) :
    Except String (List (RerankResult μ)) × CrossState :=
  if cfg.fallbackOnError then
    let fallbackScores := candidates.map (fun c => c.score.getD 0)
    (Except.ok (applyTopK topK (noneBuild (candidates.zip fallbackScores) 0)), st)
  else (Except.error e, st)

/-- `CrossEncoderReranker.rerank`: validate, reset the diagnostic state, score
in batches, assemble via `create_results`, truncate to `top_k`; on a
`RerankerError` inside the `try` (including one raised by `create_results`)
fall back or propagate. -/
def rerankCross {μ : Type} (cfg : CrossConfig) (scorer : String → List String → ScorerOutcome)
    (query : String) (candidates : List (RerankCandidate μ)) (topK : Option Int)
    (st0 : CrossState) : Except String (List (RerankResult μ)) × CrossState :=
  match validateCandidates candidates with
  | Except.error e => (Except.error e, st0)
  | Except.ok _ =>
    let texts := candidates.map (fun c => c.text)
    match scoreAll cfg scorer query (pyBatches cfg.batchSize texts) ⟨none, false⟩ with
    | (Except.ok allScores, st) =>
      match createResults candidates allScores none with
      | Except.ok results => (Except.ok (applyTopK topK results), st)
      | Except.error e => crossFallback cfg candidates topK e st
    | (Except.error e, st) => crossFallback cfg candidates topK e st

/-! ## Generative (LLM) reranker (src/libs/reranker/llm_reranker.py) -/

structure LLMConfig where
  maxRetries : Nat
  promptTemplate : List Char

/-- The first match of the regex `(\d+\.?\d*)` in a line: the token starting
at the first digit, consisting of a maximal digit run, an optional dot, and a
further maximal digit run. -/
def extractNumber : List Char → Option (List Char)
  | [] => none
  | c :: rest =>
    if c.isDigit then
      let ds := (c :: rest).takeWhile Char.isDigit
      let r := (c :: rest).dropWhile Char.isDigit
      some (match r with
            | '.' :: r2 => ds ++ '.' :: r2.takeWhile Char.isDigit
            | _ => ds)
    else extractNumber rest

def parseDigits (ds : List Char) : Nat :=
  ds.foldl (fun a c => a * 10 + (c.toNat - 48)) 0

/-- `float(...)` on a matched token (always of the form digits[.digits], so
the `ValueError` branch of the source is unreachable). -/
def parseScore (tok : List Char) : ℚ :=
  let intPart := tok.takeWhile Char.isDigit
  let rest := tok.dropWhile Char.isDigit
  match rest with
  | '.' :: frac => (parseDigits intPart : ℚ) + (parseDigits frac : ℚ) / ((10 : ℚ) ^ frac.length)
  | _ => (parseDigits intPart : ℚ)

/-- `LLMReranker._parse_scores`: strip the output, split into lines, extract
the first number of each non-blank line (lines without a number are skipped),
and require exactly one score per candidate. -/
def parseScores (output : List Char) (numCandidates : Nat) : Except String (List ℚ) :=
  let lines := splitOn (("\n").data) (pyStrip output)
  let scores := lines.filterMap (fun ln =>
    let l := pyStrip ln
    if l = [] then none else (extractNumber l).map parseScore)
  if scores.length ≠ numCandidates then
    Except.error "score count does not match candidate count"
  else Except.ok scores

/-- `LLMReranker._format_prompt`: 1-indexed enumeration of candidate texts,
newline-joined, substituted into the template.  (`str.format` is modelled as
substitution of the two named placeholders.) -/
def joinSep (sep : List Char) : List (List Char) → List Char
  | [] => []
  | [x] => x
  | x :: y :: xs => x ++ sep ++ joinSep sep (y :: xs)

def formatPrompt {μ : Type} (tmpl : List Char) (query : String)
    (candidates : List (RerankCandidate μ)) : List Char :=
  let passages := joinSep (("\n").data)
    (candidates.enum.map (fun p =>
      (Nat.repr (p.1 + 1)).data ++ (". ").data ++ p.2.text.data))
  replaceAll (("{passages}").data) passages (replaceAll (("{query}").data) query.data tmpl)

/-- One iteration of the retry loop: send the prompt as a single user message
(the chat collaborator is modelled as a function of the call index and the
prompt), parse the response into scores, assemble via `create_results`, and
truncate to `top_k`.  Every failure caught by the loop (`LLMError` from the
chat call, `RerankerError` from parsing or assembly) surfaces as an error. -/
def llmTryOnce {μ : Type} (chat : Nat → List Char → Except String String) (cfg : LLMConfig)
    (query : String) (candidates : List (RerankCandidate μ)) (topK : Option Int)
    (idx : Nat) : Except String (List (RerankResult μ)) :=
  match chat idx (formatPrompt cfg.promptTemplate query candidates) with
  | Except.error e => Except.error e
  | Except.ok content =>
    match parseScores content.data candidates.length with
    | Except.error e => Except.error e
    | Except.ok scores =>
      match createResults candidates scores none with
      | Except.error e => Except.error e
      | Except.ok results => Except.ok (applyTopK topK results)

/-- The terminal error raised when retries are exhausted; it carries the last
underlying error text. -/
def retryFailMsg (maxRetries : Nat) (e : String) : String :=
  "LLM rerank failed after " ++ Nat.repr maxRetries ++ " retries: " ++ e

/-- The retry loop `for attempt in range(self.max_retries + 1)`, with the
remaining-attempt count as first argument and the number of collaborator
calls made so far as second (each attempt performs exactly one chat call).
The zero-attempts case models the `raise` after the loop, unreachable since
the loop always starts with `max_retries + 1 ≥ 1` attempts. -/
def llmGo {μ : Type} (chat : Nat → List Char → Except String String) (cfg : LLMConfig)
    (query : String) (candidates : List (RerankCandidate μ)) (topK : Option Int) :
    Nat → Nat → Except String (List (RerankResult μ)) × Nat
  | 0, idx => (Except.error "LLM rerank failed", idx)
  | n + 1, idx =>
    match llmTryOnce chat cfg query candidates topK idx with
    | Except.ok r => (Except.ok r, idx + 1)
    | Except.error e =>
      if n = 0 then (Except.error (retryFailMsg cfg.maxRetries e), idx + 1)
      else llmGo chat cfg query candidates topK n (idx + 1)

/-- `LLMReranker.rerank`: validate, then retry the full send/parse/assemble
call up to `max_retries` additional times.  Returns the result together with
the number of collaborator calls performed. -/
def rerankLLM {μ : Type} (chat : Nat → List Char → Except String String) (cfg : LLMConfig)
    (query : String) (candidates : List (RerankCandidate μ)) (topK : Option Int) :
    Except String (List (RerankResult μ)) × Nat :=
  match validateCandidates candidates with
  | Except.error e => (Except.error e, 0)
  | Except.ok _ => llmGo chat cfg query candidates topK (cfg.maxRetries + 1) 0

/-! ## Shared lemmas -/

theorem validateCandidates_ok {μ : Type} (candidates : List (RerankCandidate μ))
    (hne : candidates ≠ []) (hids : (candidates.map (fun c => c.id)).Nodup) :
    validateCandidates candidates = Except.ok () := by
  unfold validateCandidates
  rw [if_neg, if_pos hids]
  simpa using hne

theorem noneBuild_zip_map {μ : Type} (f : RerankCandidate μ → ℚ) :
    ∀ (l : List (RerankCandidate μ)) (n : Nat),
      noneBuild (l.zip (l.map f)) (n : Int) =
        (l.enumFrom n).map (fun p =>
          RerankResult.mk p.2.id p.2.text (f p.2) (p.1 : Int) (p.1 : Int) p.2.metadata) := by
  intro l
  induction l with
  | nil => intro n; rfl
  | cons c rest ih =>
    intro n
    have hcast : ((n : Int) + 1) = ((n + 1 : Nat) : Int) := by push_cast; ring
    simp only [List.map_cons, List.zip_cons_cons, noneBuild, List.enumFrom, hcast]
    exact congrArg _ (ih (n + 1))

/-! ## Claim C8: the passthrough reranker -/

/-- C8.  For every valid candidate list, the passthrough (none) reranker
returns results in input order with `new_rank = original_rank = input
position`, each result's score equal to the candidate's input score with a
missing score treated as `0.0`; it never reorders, regardless of the score
values (the right-hand side enumerates the candidates in input order with no
condition on the scores). -/
theorem claim_C8 {μ : Type} (query : String) (candidates : List (RerankCandidate μ))
    (hne : candidates ≠ []) (hids : (candidates.map (fun c => c.id)).Nodup) :
    rerankNone query candidates none =
      Except.ok (candidates.enum.map (fun p =>
        RerankResult.mk p.2.id p.2.text (p.2.score.getD 0) (p.1 : Int) (p.1 : Int)
          p.2.metadata)) := by
  unfold rerankNone
  rw [validateCandidates_ok candidates hne hids]
  have h := noneBuild_zip_map (fun c => c.score.getD 0) candidates 0
  simp only [Int.ofNat_zero] at h
  simp [applyTopK, h, List.enum]

/-- C8 witness: the spec's own example, scores `[0.9, 0.8, 0.7]` on ids
`["1","2","3"]` (expressed exactly; `0.9 = 9/10` as a rational). -/
theorem claim_C8_witness :
    rerankNone "q" [RerankCandidate.mk "1" "d1" (some (9/10)) (none : Option Unit),
                    RerankCandidate.mk "2" "d2" (some (8/10)) none,
                    RerankCandidate.mk "3" "d3" (some (7/10)) none] none =
      Except.ok ([RerankCandidate.mk "1" "d1" (some ((9:ℚ)/10)) (none : Option Unit),
                  RerankCandidate.mk "2" "d2" (some (8/10)) none,
                  RerankCandidate.mk "3" "d3" (some (7/10)) none].enum.map (fun p =>
        RerankResult.mk p.2.id p.2.text (p.2.score.getD 0) (p.1 : Int) (p.1 : Int)
          p.2.metadata)) :=
  claim_C8 "q" _ (by simp) (by simp)

/-! ## Claim C10: the generative reranker's score parser -/

theorem parseScore_nonneg (tok : List Char) : 0 ≤ parseScore tok := by
  simp only [parseScore]
  split
  · positivity
  · positivity

/-- C10.  The score parser's pattern matches only unsigned numeric tokens, so
every parsed score is non-negative, and a minus sign preceding a number on a
line is ignored: the response line `-2` yields the score `2.0`, never
`-2.0`. -/
theorem claim_C10 :
    (∀ (output : List Char) (n : Nat) (scores : List ℚ),
        parseScores output n = Except.ok scores → ∀ s ∈ scores, 0 ≤ s) ∧
    parseScores (("-2").data) 1 = Except.ok [2] := by
  constructor
  · intro output n scores h s hs
    simp only [parseScores] at h
    split at h
    · cases h
    · cases h
      rcases List.mem_filterMap.mp hs with ⟨ln, _, h2⟩
      split at h2
      · cases h2
      · rcases Option.map_eq_some'.mp h2 with ⟨tok, _, htok⟩
        exact htok ▸ parseScore_nonneg tok
  · decide

/-- C10 witness: instantiates the universal part at the output `"5"` for one
candidate. -/
theorem claim_C10_witness :
    parseScores (("5").data) 1 = Except.ok [5] ∧ (0:ℚ) ≤ 5 :=
  ⟨by decide, claim_C10.1 (("5").data) 1 [5] (by decide) 5 (by simp)⟩

/-! ## Claim C2: the overlap-stitching soft ceiling -/

/-- C2 counterexample.  With `chunk_size = 10` (ceiling `12`) and
`chunk_overlap = 9`, on the chunk list `["aaaaaaaaa", "bbbbbbbbbb",
"ccccccccc"]` the interior chunk receives the previous chunk's trailing
slice unconditionally: the resulting chunk is the 19-character
`"aaaaaaaaabbbbbbbbbb"`, which exceeds `chunk_size × 1.2 = 12` — refuting
the claim that an addition breaching the ceiling is always skipped
(`5 * 19 ≤ 6 * 10` is false). -/
theorem claim_C2_counterexample :
    (addOverlap ⟨10, 9, true, []⟩
        [("aaaaaaaaa").data, ("bbbbbbbbbb").data, ("ccccccccc").data]).getD 1 [] =
      ("aaaaaaaaa").data ++ ("bbbbbbbbbb").data ∧
    ¬ (5 * ((addOverlap ⟨10, 9, true, []⟩
        [("aaaaaaaaa").data, ("bbbbbbbbbb").data, ("ccccccccc").data]).getD 1 []).length
        ≤ 6 * 10) := by
  decide

theorem pySliceLast_length_le (n : Nat) (l : List Char) (h : 0 < n) :
    (pySliceLast n l).length ≤ n := by
  unfold pySliceLast
  rw [if_neg (by omega)]
  simp only [List.length_drop]
  omega

theorem guardedAppend_cases (k : Nat) (a b : List Char) :
    5 * (if 5 * (a.length + b.length) ≤ 6 * k then a ++ b else a).length ≤ 6 * k ∨
    (if 5 * (a.length + b.length) ≤ 6 * k then a ++ b else a) = a := by
  split
  · left
    rw [List.length_append]
    assumption
  · right
    rfl

theorem guardedPrepend_cases (k : Nat) (a b : List Char) :
    5 * (if 5 * (b.length + a.length) ≤ 6 * k then b ++ a else a).length ≤ 6 * k ∨
    (if 5 * (b.length + a.length) ≤ 6 * k then b ++ a else a) = a := by
  split
  · left
    rw [List.length_append]
    rename_i hc
    omega
  · right
    rfl

theorem guardedInterior_cases (k : Nat) (a b c : List Char) :
    5 * (if 5 * ((b ++ a).length + c.length) ≤ 6 * k then b ++ a ++ c else b ++ a).length
      ≤ 6 * k ∨
    (if 5 * ((b ++ a).length + c.length) ≤ 6 * k then b ++ a ++ c else b ++ a).length
      ≤ a.length + b.length := by
  split
  · left
    simp only [List.length_append] at *
    omega
  · right
    rw [List.length_append]
    omega

/-- C2 as amended.  In overlap stitching (`chunk_overlap > 0`, more than one
chunk): the first chunk's trailing addition, the last chunk's leading
addition, and each interior chunk's trailing addition are applied only if
the result stays within the `chunk_size × 1.2` ceiling, but an interior
chunk's leading slice is concatenated unconditionally.  Hence every output
chunk is bounded by `max (own length + chunk_overlap) (1.2 × chunk_size)`,
and the first and last chunks are either within the ceiling or left
untouched. -/
theorem claim_C2_amended (cfg : SplitterConfig) (chunks : List (List Char))
    (hov : 0 < cfg.chunkOverlap) (hlen : 1 < chunks.length) :
    (addOverlap cfg chunks).length = chunks.length ∧
    ∀ i, i < chunks.length →
      (5 * ((addOverlap cfg chunks).getD i []).length ≤ 6 * cfg.chunkSize ∨
       ((addOverlap cfg chunks).getD i []).length ≤ (chunks.getD i []).length + cfg.chunkOverlap) ∧
      ((i = 0 ∨ i = chunks.length - 1) →
        5 * ((addOverlap cfg chunks).getD i []).length ≤ 6 * cfg.chunkSize ∨
        (addOverlap cfg chunks).getD i [] = chunks.getD i []) := by
  have hno : ¬ chunks.length ≤ 1 := by omega
  unfold addOverlap
  rw [if_neg hno]
  refine ⟨by simp, ?_⟩
  intro i hi
  have hgd : ∀ (f : Nat → List Char),
      ((List.range chunks.length).map f).getD i [] = f i := by
    intro f
    rw [List.getD_eq_getElem _ _ (by simpa using hi)]
    simp
  rw [hgd]
  dsimp only
  by_cases h0 : i = 0
  · subst h0
    rw [if_pos rfl]
    rcases guardedAppend_cases cfg.chunkSize (chunks.getD 0 [])
        (List.take cfg.chunkOverlap (chunks.getD (0 + 1) [])) with h | h
    · exact ⟨Or.inl h, fun _ => Or.inl h⟩
    · rw [h]
      refine ⟨Or.inr (by omega), fun _ => Or.inr rfl⟩
  · rw [if_neg h0]
    have hps := pySliceLast_length_le cfg.chunkOverlap (chunks.getD (i - 1) []) hov
    by_cases hlast : i = chunks.length - 1
    · rw [if_pos hlast]
      rcases guardedPrepend_cases cfg.chunkSize (chunks.getD i [])
          (pySliceLast cfg.chunkOverlap (chunks.getD (i - 1) [])) with h | h
      · exact ⟨Or.inl h, fun _ => Or.inl h⟩
      · rw [h]
        refine ⟨Or.inr (by omega), fun _ => Or.inr rfl⟩
    · rw [if_neg hlast]
      refine ⟨?_, fun hcontra => absurd hcontra (by simp [h0, hlast])⟩
      rcases guardedInterior_cases cfg.chunkSize (chunks.getD i [])
          (pySliceLast cfg.chunkOverlap (chunks.getD (i - 1) []))
          (List.take cfg.chunkOverlap (chunks.getD (i + 1) [])) with h | h
      · exact Or.inl h
      · exact Or.inr (by omega)

/-- C2 amended witness: the counterexample input, interior chunk `i = 1`. -/
theorem claim_C2_amended_witness :
    (5 * ((addOverlap ⟨10, 9, true, []⟩
        [("aaaaaaaaa").data, ("bbbbbbbbbb").data, ("ccccccccc").data]).getD 1 []).length
        ≤ 6 * (10:Nat) ∨
     ((addOverlap ⟨10, 9, true, []⟩
        [("aaaaaaaaa").data, ("bbbbbbbbbb").data, ("ccccccccc").data]).getD 1 []).length ≤
       (([("aaaaaaaaa").data, ("bbbbbbbbbb").data, ("ccccccccc").data]).getD 1 []).length + 9) ∧
    ((1 = 0 ∨ 1 = ([("aaaaaaaaa").data, ("bbbbbbbbbb").data, ("ccccccccc").data]).length - 1) →
      5 * ((addOverlap ⟨10, 9, true, []⟩
        [("aaaaaaaaa").data, ("bbbbbbbbbb").data, ("ccccccccc").data]).getD 1 []).length
        ≤ 6 * (10:Nat) ∨
      (addOverlap ⟨10, 9, true, []⟩
        [("aaaaaaaaa").data, ("bbbbbbbbbb").data, ("ccccccccc").data]).getD 1 [] =
        ([("aaaaaaaaa").data, ("bbbbbbbbbb").data, ("ccccccccc").data]).getD 1 []) :=
  (claim_C2_amended ⟨10, 9, true, []⟩
    [("aaaaaaaaa").data, ("bbbbbbbbbb").data, ("ccccccccc").data]
    (by decide) (by decide)).2 1 (by decide)

/-! ## Claim C4: scored-reranker failure handling -/

theorem scoreWithTimeout_error_lastError (cfg : CrossConfig)
    (scorer : String → List String → ScorerOutcome) (query : String) (texts : List String)
    (st : CrossState) (e : String)
    (h : (scoreWithTimeout cfg scorer query texts st).1 = Except.error e) :
    (scoreWithTimeout cfg scorer query texts st).2.lastError ≠ none := by
  unfold scoreWithTimeout at h ⊢
  generalize hsc : scorer query texts = out at h ⊢
  cases out with
  | exn m => simp
  | ok scores elapsed =>
    dsimp only at h ⊢
    by_cases h1 : cfg.timeout < elapsed
    · rw [if_pos h1]
      simp
    · rw [if_neg h1] at h ⊢
      by_cases h2 : scores.length ≠ texts.length
      · rw [if_pos h2]
        simp
      · rw [if_neg h2] at h
        exact absurd h (by simp)

theorem scoreAll_error_lastError (cfg : CrossConfig)
    (scorer : String → List String → ScorerOutcome) (query : String) :
    ∀ (batches : List (List String)) (st : CrossState) (e : String),
      (scoreAll cfg scorer query batches st).1 = Except.error e →
      (scoreAll cfg scorer query batches st).2.lastError ≠ none := by
  intro batches
  induction batches with
  | nil => intro st e h; simp [scoreAll] at h
  | cons b rest ih =>
    intro st e h
    simp only [scoreAll] at h ⊢
    generalize hsw : scoreWithTimeout cfg scorer query b st = p at h ⊢
    obtain ⟨r1, st1⟩ := p
    cases r1 with
    | error e1 =>
      dsimp only at h ⊢
      have hlem := scoreWithTimeout_error_lastError cfg scorer query b st e1 (by rw [hsw])
      rw [hsw] at hlem
      exact hlem
    | ok s1 =>
      dsimp only at h ⊢
      generalize hsa : scoreAll cfg scorer query rest st1 = q at h ⊢
      obtain ⟨r2, st2⟩ := q
      cases r2 with
      | error e2 =>
        dsimp only at h ⊢
        have hlem := ih st1 e2 (by rw [hsa])
        rw [hsa] at hlem
        exact hlem
      | ok s2 =>
        dsimp only at h
        exact absurd h (by simp)

/-- C4.  For the scored (cross-encoder) reranker on a valid candidate list:
whenever batch scoring fails (scorer exception, score-count mismatch, or
post-hoc timeout — i.e. the batch loop returns an error), then with
`fallback_on_error` set `rerank` returns results in original input order
with each candidate's own pre-existing score (or `0.0`), `new_rank` equal to
`original_rank`, and a non-null `_last_error` on the instance; with
`fallback_on_error` unset the same failure propagates to the caller. -/
theorem claim_C4 {μ : Type} (cfg : CrossConfig) (scorer : String → List String → ScorerOutcome)
    (query : String) (candidates : List (RerankCandidate μ)) (st0 : CrossState)
    (hne : candidates ≠ []) (hids : (candidates.map (fun c => c.id)).Nodup)
    (e : String)
    (hfail : (scoreAll cfg scorer query
        (pyBatches cfg.batchSize (candidates.map (fun c => c.text))) ⟨none, false⟩).1 =
      Except.error e) :
    (cfg.fallbackOnError = true →
       rerankCross cfg scorer query candidates none st0 =
         (Except.ok (candidates.enum.map (fun p =>
            RerankResult.mk p.2.id p.2.text (p.2.score.getD 0) (p.1 : Int) (p.1 : Int)
              p.2.metadata)),
          (scoreAll cfg scorer query
            (pyBatches cfg.batchSize (candidates.map (fun c => c.text))) ⟨none, false⟩).2) ∧
       (scoreAll cfg scorer query
          (pyBatches cfg.batchSize (candidates.map (fun c => c.text)))
          ⟨none, false⟩).2.lastError ≠ none) ∧
    (cfg.fallbackOnError = false →
       rerankCross cfg scorer query candidates none st0 =
         (Except.error e,
          (scoreAll cfg scorer query
            (pyBatches cfg.batchSize (candidates.map (fun c => c.text))) ⟨none, false⟩).2)) := by
  have hLE := scoreAll_error_lastError cfg scorer query
    (pyBatches cfg.batchSize (candidates.map (fun c => c.text))) ⟨none, false⟩ e hfail
  generalize hsa : scoreAll cfg scorer query
      (pyBatches cfg.batchSize (candidates.map (fun c => c.text))) ⟨none, false⟩ = p
    at hfail hLE ⊢
  obtain ⟨r, st⟩ := p
  dsimp only at hfail hLE ⊢
  subst hfail
  have hmain : rerankCross cfg scorer query candidates none st0 =
      crossFallback cfg candidates none e st := by
    unfold rerankCross
    rw [validateCandidates_ok candidates hne hids]
    dsimp only
    rw [hsa]
  rw [hmain]
  constructor
  · intro hfb
    refine ⟨?_, hLE⟩
    have h := noneBuild_zip_map (fun c => c.score.getD 0) candidates 0
    simp only [Int.ofNat_zero] at h
    simp [crossFallback, hfb, applyTopK, h, List.enum]
  · intro hfb
    simp [crossFallback, hfb]

/-- C4 witness: one candidate, a scorer that raises, `fallback_on_error = true`. -/
theorem claim_C4_witness :
    ((⟨30, 32, true⟩ : CrossConfig).fallbackOnError = true →
       rerankCross ⟨30, 32, true⟩ (fun _ _ => ScorerOutcome.exn "boom") "q"
           [RerankCandidate.mk "1" "a" (some 2) (none : Option Unit)] none ⟨none, false⟩ =
         (Except.ok ([RerankCandidate.mk "1" "a" (some 2) (none : Option Unit)].enum.map
            (fun p => RerankResult.mk p.2.id p.2.text (p.2.score.getD 0) (p.1 : Int) (p.1 : Int)
              p.2.metadata)),
          (scoreAll ⟨30, 32, true⟩ (fun _ _ => ScorerOutcome.exn "boom") "q"
            (pyBatches 32 ([RerankCandidate.mk "1" "a" (some 2)
              (none : Option Unit)].map (fun c => c.text))) ⟨none, false⟩).2) ∧
       (scoreAll ⟨30, 32, true⟩ (fun _ _ => ScorerOutcome.exn "boom") "q"
          (pyBatches 32 ([RerankCandidate.mk "1" "a" (some 2)
            (none : Option Unit)].map (fun c => c.text))) ⟨none, false⟩).2.lastError ≠ none) ∧
    ((⟨30, 32, true⟩ : CrossConfig).fallbackOnError = false →
       rerankCross ⟨30, 32, true⟩ (fun _ _ => ScorerOutcome.exn "boom") "q"
           [RerankCandidate.mk "1" "a" (some 2) (none : Option Unit)] none ⟨none, false⟩ =
         (Except.error "Scoring failed: boom",
          (scoreAll ⟨30, 32, true⟩ (fun _ _ => ScorerOutcome.exn "boom") "q"
            (pyBatches 32 ([RerankCandidate.mk "1" "a" (some 2)
              (none : Option Unit)].map (fun c => c.text))) ⟨none, false⟩).2)) :=
  claim_C4 ⟨30, 32, true⟩ (fun _ _ => ScorerOutcome.exn "boom") "q"
    [RerankCandidate.mk "1" "a" (some 2) (none : Option Unit)] ⟨none, false⟩
    (by simp) (by simp) "Scoring failed: boom" (by decide)

/-! ## Claim C5: generative-reranker retry semantics -/

theorem llmGo_all_fail {μ : Type} (chat : Nat → List Char → Except String String)
    (cfg : LLMConfig) (query : String) (candidates : List (RerankCandidate μ))
    (topK : Option Int) (errOf : Nat → String)
    (hall : ∀ i, llmTryOnce chat cfg query candidates topK i = Except.error (errOf i)) :
    ∀ (n idx : Nat),
      llmGo chat cfg query candidates topK (n + 1) idx =
        (Except.error (retryFailMsg cfg.maxRetries (errOf (idx + n))), idx + n + 1) := by
  intro n
  induction n with
  | zero => intro idx; simp [llmGo, hall idx]
  | succ n ih =>
    intro idx
    have ih2 := ih (idx + 1)
    have harith1 : idx + 1 + n = idx + (n + 1) := by omega
    rw [harith1] at ih2
    simp only [llmGo, hall, Nat.succ_ne_zero, if_false] at ih2 ⊢
    exact ih2

/-- C5.  For the generative (LLM) reranker with retry limit `max_retries`:
if the first attempt (collaborator call or score parsing) fails and the
second succeeds, `rerank` completes successfully using exactly two
collaborator calls when `max_retries ≥ 1`; if every attempt fails, `rerank`
makes exactly `max_retries + 1` collaborator calls and raises an error that
carries the last underlying error. -/
theorem claim_C5 {μ : Type} (chat : Nat → List Char → Except String String) (cfg : LLMConfig)
    (query : String) (candidates : List (RerankCandidate μ))
    (hne : candidates ≠ []) (hids : (candidates.map (fun c => c.id)).Nodup) :
    (∀ (e : String) (r : List (RerankResult μ)),
       llmTryOnce chat cfg query candidates none 0 = Except.error e →
       llmTryOnce chat cfg query candidates none 1 = Except.ok r →
       1 ≤ cfg.maxRetries →
       rerankLLM chat cfg query candidates none = (Except.ok r, 2)) ∧
    (∀ errOf : Nat → String,
       (∀ i, llmTryOnce chat cfg query candidates none i = Except.error (errOf i)) →
       rerankLLM chat cfg query candidates none =
         (Except.error (retryFailMsg cfg.maxRetries (errOf cfg.maxRetries)),
          cfg.maxRetries + 1)) := by
  constructor
  · intro e r h0 h1 hm
    unfold rerankLLM
    rw [validateCandidates_ok candidates hne hids]
    obtain ⟨m, hmr⟩ : ∃ m, cfg.maxRetries = m + 1 := ⟨cfg.maxRetries - 1, by omega⟩
    rw [hmr]
    simp only [llmGo, h0]
    rw [if_neg (Nat.succ_ne_zero m)]
    simp [llmGo, h1]
  · intro errOf hall
    unfold rerankLLM
    rw [validateCandidates_ok candidates hne hids]
    have h := llmGo_all_fail chat cfg query candidates none errOf hall cfg.maxRetries 0
    simpa using h

/-- C5 witness: a collaborator that fails on call 0 and answers `"1"` on
call 1, one candidate, `max_retries = 1`: success after exactly two calls. -/
theorem claim_C5_witness :
    rerankLLM (fun i _ => if i = 0 then Except.error "fail0" else Except.ok "1")
        ⟨1, ("tmpl").data⟩ "q" [RerankCandidate.mk "1" "a" (none : Option ℚ) (none : Option Unit)]
        none =
      (Except.ok [RerankResult.mk "1" "a" 1 0 0 none], 2) :=
  (claim_C5 (fun i _ => if i = 0 then Except.error "fail0" else Except.ok "1")
      ⟨1, ("tmpl").data⟩ "q" [RerankCandidate.mk "1" "a" (none : Option ℚ) (none : Option Unit)]
      (by simp) (by simp)).1 "fail0" [RerankResult.mk "1" "a" 1 0 0 none]
    (by decide) (by decide) (by decide)

/-! ## Claim C1: id preservation across all strategies -/

theorem insertDesc_perm {μ : Type} (x : RerankResult μ) (ys : List (RerankResult μ)) :
    insertDesc x ys ~ x :: ys := by
  induction ys with
  | nil => exact List.Perm.refl _
  | cons y ys ih =>
    simp only [insertDesc]
    split
    · exact ((ih.cons y).trans (List.Perm.swap x y ys))
    · exact List.Perm.refl _

theorem sortByScoreDesc_perm {μ : Type} (l : List (RerankResult μ)) :
    sortByScoreDesc l ~ l := by
  induction l with
  | nil => exact List.Perm.refl _
  | cons x xs ih => exact (insertDesc_perm x (sortByScoreDesc xs)).trans (ih.cons x)

theorem buildResults_map_id {μ : Type} :
    ∀ (pairs : List (RerankCandidate μ × ℚ)) (ranks : List Int),
      (buildResults pairs ranks).map (fun r => r.id) = pairs.map (fun p => p.1.id)
  | [], _ => rfl
  | (c, s) :: rest, ranks => by
    simp only [buildResults, List.map_cons]
    rw [buildResults_map_id rest ranks.tail]

theorem assignNewRanks_map_id {μ : Type} :
    ∀ (i : Int) (l : List (RerankResult μ)),
      (assignNewRanks i l).map (fun r => r.id) = l.map (fun r => r.id)
  | _, [] => rfl
  | i, r :: rest => by
    simp only [assignNewRanks, List.map_cons]
    rw [assignNewRanks_map_id (i + 1) rest]

theorem createResults_ids_perm {μ : Type} (candidates : List (RerankCandidate μ))
    (scores : List ℚ) (rs : List (RerankResult μ))
    (h : createResults candidates scores none = Except.ok rs) :
    rs.map (fun r => r.id) ~ candidates.map (fun c => c.id) := by
  simp only [createResults] at h
  split at h
  · cases h
  · rename_i hlen
    cases h
    simp only [Option.getD_none]
    rw [assignNewRanks_map_id]
    have hperm := (sortByScoreDesc_perm
      (buildResults (candidates.zip scores) ((List.range candidates.length).map Int.ofNat)))
    have hthis := hperm.map (fun r => r.id)
    rw [buildResults_map_id] at hthis
    calc (sortByScoreDesc _).map (fun r => r.id)
        ~ (candidates.zip scores).map (fun p => p.1.id) := hthis
      _ = candidates.map (fun c => c.id) := by
          have hz : (candidates.zip scores).map (fun p => p.1.id) =
              ((candidates.zip scores).map Prod.fst).map (fun c => c.id) := by
            rw [List.map_map]; rfl
          rw [hz, List.map_fst_zip candidates scores (by omega)]

theorem noneBuild_map_id {μ : Type} :
    ∀ (pairs : List (RerankCandidate μ × ℚ)) (i : Int),
      (noneBuild pairs i).map (fun r => r.id) = pairs.map (fun p => p.1.id)
  | [], _ => rfl
  | (c, s) :: rest, i => by
    simp only [noneBuild, List.map_cons]
    rw [noneBuild_map_id rest (i + 1)]

theorem noneBuild_zip_ids {μ : Type} (candidates : List (RerankCandidate μ))
    (f : RerankCandidate μ → ℚ) (i : Int) :
    (noneBuild (candidates.zip (candidates.map f)) i).map (fun r => r.id) =
      candidates.map (fun c => c.id) := by
  rw [noneBuild_map_id]
  have hz : (candidates.zip (candidates.map f)).map (fun p => p.1.id) =
      ((candidates.zip (candidates.map f)).map Prod.fst).map (fun c => c.id) := by
    rw [List.map_map]; rfl
  rw [hz, List.map_fst_zip candidates _ (by simp)]

theorem llmTryOnce_ok_ids {μ : Type} (chat : Nat → List Char → Except String String)
    (cfg : LLMConfig) (query : String) (candidates : List (RerankCandidate μ)) (idx : Nat)
    (r : List (RerankResult μ))
    (h : llmTryOnce chat cfg query candidates none idx = Except.ok r) :
    r.map (fun x => x.id) ~ candidates.map (fun c => c.id) := by
  unfold llmTryOnce at h
  generalize hch : chat idx (formatPrompt cfg.promptTemplate query candidates) = c1 at h
  cases c1 with
  | error e => cases h
  | ok content =>
    dsimp only at h
    generalize hps : parseScores content.data candidates.length = p1 at h
    cases p1 with
    | error e => cases h
    | ok scores =>
      dsimp only at h
      generalize hcr : createResults candidates scores none = q1 at h
      cases q1 with
      | error e => cases h
      | ok results =>
        dsimp only [applyTopK] at h
        cases h
        exact createResults_ids_perm candidates scores _ hcr

theorem llmGo_ok_ids {μ : Type} (chat : Nat → List Char → Except String String)
    (cfg : LLMConfig) (query : String) (candidates : List (RerankCandidate μ)) :
    ∀ (n idx : Nat) (r : List (RerankResult μ)) (m : Nat),
      llmGo chat cfg query candidates none n idx = (Except.ok r, m) →
      r.map (fun x => x.id) ~ candidates.map (fun c => c.id) := by
  intro n
  induction n with
  | zero => intro idx r m h; cases h
  | succ n ih =>
    intro idx r m h
    simp only [llmGo] at h
    generalize htr : llmTryOnce chat cfg query candidates none idx = t at h
    cases t with
    | ok r2 =>
      dsimp only at h
      cases h
      exact llmTryOnce_ok_ids chat cfg query candidates idx r htr
    | error e =>
      dsimp only at h
      split at h
      · cases h
      · exact ih (idx + 1) r m h

/-- C1.  For every strategy (passthrough, scored, generative) and every valid
candidate list, whenever `rerank` returns a result set, its multiset of ids
is exactly the multiset of input candidate ids — none introduced, duplicated,
or dropped (stated as a permutation of the id lists, for the default
`top_k = None`). -/
theorem claim_C1 {μ : Type} (query : String) (candidates : List (RerankCandidate μ))
    (hne : candidates ≠ []) (hids : (candidates.map (fun c => c.id)).Nodup) :
    (∀ rs : List (RerankResult μ),
       rerankNone query candidates none = Except.ok rs →
       rs.map (fun r => r.id) ~ candidates.map (fun c => c.id)) ∧
    (∀ (cfg : CrossConfig) (scorer : String → List String → ScorerOutcome)
       (st0 st : CrossState) (rs : List (RerankResult μ)),
       rerankCross cfg scorer query candidates none st0 = (Except.ok rs, st) →
       rs.map (fun r => r.id) ~ candidates.map (fun c => c.id)) ∧
    (∀ (chat : Nat → List Char → Except String String) (lcfg : LLMConfig)
       (rs : List (RerankResult μ)) (m : Nat),
       rerankLLM chat lcfg query candidates none = (Except.ok rs, m) →
       rs.map (fun r => r.id) ~ candidates.map (fun c => c.id)) := by
  refine ⟨?_, ?_, ?_⟩
  · intro rs h
    unfold rerankNone at h
    rw [validateCandidates_ok candidates hne hids] at h
    dsimp only [applyTopK] at h
    cases h
    rw [noneBuild_zip_ids]
  · intro cfg scorer st0 st rs h
    unfold rerankCross at h
    rw [validateCandidates_ok candidates hne hids] at h
    dsimp only at h
    generalize hsa : scoreAll cfg scorer query
        (pyBatches cfg.batchSize (candidates.map (fun c => c.text))) ⟨none, false⟩ = p at h
    obtain ⟨r1, st1⟩ := p
    cases r1 with
    | ok allScores =>
      dsimp only at h
      generalize hcr : createResults candidates allScores none = q at h
      cases q with
      | ok results =>
        dsimp only [applyTopK] at h
        cases h
        exact createResults_ids_perm candidates allScores rs hcr
      | error e =>
        dsimp only [crossFallback] at h
        split at h
        · dsimp only [applyTopK] at h
          cases h
          rw [noneBuild_zip_ids]
        · cases h
    | error e =>
      dsimp only [crossFallback] at h
      split at h
      · dsimp only [applyTopK] at h
        cases h
        rw [noneBuild_zip_ids]
      · cases h
  · intro chat lcfg rs m h
    unfold rerankLLM at h
    rw [validateCandidates_ok candidates hne hids] at h
    exact llmGo_ok_ids chat lcfg query candidates (lcfg.maxRetries + 1) 0 rs m h

/-- C1 witness: the passthrough strategy on two candidates. -/
theorem claim_C1_witness :
    [RerankResult.mk "1" "a" 2 0 0 (none : Option Unit),
     RerankResult.mk "2" "b" 0 1 1 none].map (fun r => r.id) ~
      [RerankCandidate.mk "1" "a" (some 2) (none : Option Unit),
       RerankCandidate.mk "2" "b" none none].map (fun c => c.id) :=
  (claim_C1 "q" [RerankCandidate.mk "1" "a" (some 2) (none : Option Unit),
                 RerankCandidate.mk "2" "b" none none]
    (by simp) (by simp)).1
    [RerankResult.mk "1" "a" 2 0 0 none, RerankResult.mk "2" "b" 0 1 1 none] (by decide)

/-! ## Claim C9: stability of the shared sort-by-score assembly -/

/-- The stability invariant: among equal scores, original ranks increase. -/
def stableRel {μ : Type} (a b : RerankResult μ) : Prop :=
  a.score = b.score → a.original_rank < b.original_rank

theorem insertDesc_pairwise {μ : Type} (x : RerankResult μ) :
    ∀ (ys : List (RerankResult μ)), ys.Pairwise stableRel →
      (∀ y ∈ ys, stableRel x y) → (insertDesc x ys).Pairwise stableRel := by
  intro ys
  induction ys with
  | nil => intro _ _; simp [insertDesc]
  | cons y ys ih =>
    intro hys hx
    rcases List.pairwise_cons.mp hys with ⟨hy, hys2⟩
    simp only [insertDesc]
    split
    · rename_i hlt
      refine List.pairwise_cons.mpr ⟨?_, ih hys2 (fun z hz => hx z (List.mem_cons_of_mem _ hz))⟩
      intro b hb
      have hmem : b = x ∨ b ∈ ys := List.mem_cons.mp ((insertDesc_perm x ys).mem_iff.mp hb)
      rcases hmem with rfl | hb3
      · intro heq
        rw [heq] at hlt
        exact absurd hlt (lt_irrefl _)
      · exact hy b hb3
    · refine List.pairwise_cons.mpr ⟨?_, hys⟩
      intro b hb
      rcases List.mem_cons.mp hb with rfl | hb2
      · exact hx b (List.mem_cons_self _ _)
      · exact hx b (List.mem_cons_of_mem _ hb2)

theorem sortByScoreDesc_pairwise {μ : Type} :
    ∀ (l : List (RerankResult μ)), l.Pairwise stableRel →
      (sortByScoreDesc l).Pairwise stableRel := by
  intro l
  induction l with
  | nil => intro _; simp [sortByScoreDesc]
  | cons x xs ih =>
    intro h
    rcases List.pairwise_cons.mp h with ⟨hx, hxs⟩
    exact insertDesc_pairwise x (sortByScoreDesc xs) (ih hxs)
      (fun y hy => hx y ((sortByScoreDesc_perm xs).mem_iff.mp hy))

theorem assignNewRanks_mem {μ : Type} :
    ∀ (i : Int) (l : List (RerankResult μ)) (b : RerankResult μ),
      b ∈ assignNewRanks i l →
      ∃ a ∈ l, b.score = a.score ∧ b.original_rank = a.original_rank
  | _, [], b => by intro h; cases h
  | i, r :: rest, b => by
    intro h
    rcases List.mem_cons.mp h with rfl | h2
    · exact ⟨r, List.mem_cons_self _ _, rfl, rfl⟩
    · rcases assignNewRanks_mem (i + 1) rest b h2 with ⟨a, ha, h3, h4⟩
      exact ⟨a, List.mem_cons_of_mem _ ha, h3, h4⟩

theorem assignNewRanks_pairwise {μ : Type} :
    ∀ (i : Int) (l : List (RerankResult μ)), l.Pairwise stableRel →
      (assignNewRanks i l).Pairwise stableRel := by
  intro i l
  induction l generalizing i with
  | nil => intro _; exact List.Pairwise.nil
  | cons r rest ih =>
    intro h
    rcases List.pairwise_cons.mp h with ⟨hr, hrest⟩
    refine List.pairwise_cons.mpr ⟨?_, ih (i + 1) hrest⟩
    intro b hb
    rcases assignNewRanks_mem (i + 1) rest b hb with ⟨a, ha, hsc, hrk⟩
    intro heq
    rw [hrk]
    exact hr a ha (by simpa [hsc] using heq)

theorem buildResults_rank_mem {μ : Type} :
    ∀ (pairs : List (RerankCandidate μ × ℚ)) (ranks : List Int),
      pairs.length ≤ ranks.length →
      ∀ r ∈ buildResults pairs ranks, r.original_rank ∈ ranks
  | [], _, _, r => by intro h; cases h
  | (c, s) :: rest, ranks, hlen, r => by
    intro h
    cases ranks with
    | nil => simp at hlen
    | cons rk rks =>
      rcases List.mem_cons.mp h with rfl | h2
      · exact List.mem_cons_self _ _
      · exact List.mem_cons_of_mem _
          (buildResults_rank_mem rest rks (by simpa using hlen) r h2)

theorem buildResults_pairwise_rank {μ : Type} :
    ∀ (pairs : List (RerankCandidate μ × ℚ)) (ranks : List Int),
      pairs.length ≤ ranks.length → ranks.Pairwise (· < ·) →
      (buildResults pairs ranks).Pairwise
        (fun a b => a.original_rank < b.original_rank)
  | [], _, _, _ => List.Pairwise.nil
  | (c, s) :: rest, ranks, hlen, hranks => by
    cases ranks with
    | nil => simp at hlen
    | cons rk rks =>
      rcases List.pairwise_cons.mp hranks with ⟨hrk, hrks⟩
      refine List.pairwise_cons.mpr ⟨?_, ?_⟩
      · intro b hb
        exact hrk _ (buildResults_rank_mem rest rks (by simpa using hlen) b hb)
      · exact buildResults_pairwise_rank rest rks (by simpa using hlen) hrks

theorem createResults_stable {μ : Type} (candidates : List (RerankCandidate μ))
    (scores : List ℚ) (rs : List (RerankResult μ))
    (h : createResults candidates scores none = Except.ok rs) :
    rs.Pairwise stableRel := by
  simp only [createResults] at h
  split at h
  · cases h
  · rename_i hlen
    cases h
    apply assignNewRanks_pairwise
    apply sortByScoreDesc_pairwise
    simp only [Option.getD_none]
    have hbase := buildResults_pairwise_rank (candidates.zip scores)
      ((List.range candidates.length).map Int.ofNat)
      (by simp only [List.length_zip, List.length_map, List.length_range]; omega)
      (List.pairwise_map.mpr
        ((List.pairwise_lt_range _).imp (fun hab => Int.ofNat_lt.mpr hab)))
    refine hbase.imp (fun {a b} hlt => ?_)
    exact fun _ => hlt

/-- C9.  The sort in the shared result assembly (`create_results`) is stable:
any two results with equal scores appear in the output in their original
input relative order (their `original_rank` values are increasing). -/
theorem claim_C9 {μ : Type} (candidates : List (RerankCandidate μ)) (scores : List ℚ)
    (rs : List (RerankResult μ))
    (h : createResults candidates scores none = Except.ok rs) :
    ∀ (i j : Fin rs.length), (i : Nat) < (j : Nat) →
      (rs.get i).score = (rs.get j).score →
      (rs.get i).original_rank < (rs.get j).original_rank := by
  have hp := createResults_stable candidates scores rs h
  intro i j hij heq
  exact List.pairwise_iff_get.mp hp i j hij heq

/-- C9 witness: two candidates with equal scores keep their input order. -/
theorem claim_C9_witness :
    ([RerankResult.mk "1" "a" 1 0 0 (none : Option Unit),
      RerankResult.mk "2" "b" 1 1 1 none].get ⟨0, by decide⟩).original_rank <
    ([RerankResult.mk "1" "a" 1 0 0 (none : Option Unit),
      RerankResult.mk "2" "b" 1 1 1 none].get ⟨1, by decide⟩).original_rank :=
  claim_C9 [RerankCandidate.mk "1" "a" none (none : Option Unit),
            RerankCandidate.mk "2" "b" none none] [1, 1]
    [RerankResult.mk "1" "a" 1 0 0 none, RerankResult.mk "2" "b" 1 1 1 none]
    (by decide) ⟨0, by decide⟩ ⟨1, by decide⟩ (by decide) (by decide)

/-! ## Claim C3: chunk-size bound -/

/-- C3 counterexample.  Valid configuration `chunk_size = 5, chunk_overlap =
2` on the text `"aaaa bbbb"`: overlap stitching produces the chunk
`"a bbbb"` of length `6 > 5`, and that chunk was produced by the space-tier
coalescing plus overlap, not by the forced character-level fallback (whose
chunks never exceed `chunk_size`); its length is not `chunk_size` either,
so the claim's exception clause does not cover it. -/
theorem claim_C3_counterexample :
    splitText ⟨5, 2, true, defaultSeparators⟩ (("aaaa bbbb").data) =
      Except.ok [("aaaa ").data, ("a bbbb").data] ∧
    ¬ (("a bbbb").data.length ≤ 5) ∧ ("a bbbb").data.length ≠ 5 := by
  decide

theorem mergeLoop_bound (cs : Nat) :
    ∀ (annotated : List (List Char × Option (List (List Char)))) (current : List Char),
      (∀ p ∈ annotated,
        (p.2 = none → p.1.length ≤ cs) ∧
        (∀ sub, p.2 = some sub → ∀ c ∈ sub, c.length ≤ cs)) →
      current.length ≤ cs →
      ∀ c ∈ mergeLoop cs annotated current, c.length ≤ cs := by
  intro annotated
  induction annotated with
  | nil =>
    intro current _ hcur c hc
    simp only [mergeLoop] at hc
    split at hc
    · cases hc
    · rcases List.mem_singleton.mp hc with rfl
      exact hcur
  | cons p rest ih =>
    obtain ⟨s, sub⟩ := p
    intro current hann hcur c hc
    have hp := hann (s, sub) (List.mem_cons_self _ _)
    have hrest : ∀ q ∈ rest, (q.2 = none → q.1.length ≤ cs) ∧
        (∀ sub2, q.2 = some sub2 → ∀ c2 ∈ sub2, c2.length ≤ cs) :=
      fun q hq => hann q (List.mem_cons_of_mem _ hq)
    simp only [mergeLoop] at hc
    split at hc
    · rename_i hfit
      exact ih (current ++ s) hrest (by simpa using hfit) c hc
    · rcases List.mem_append.mp hc with hc1 | hc2
      · have : c = current := by
          rcases em (current = []) with hemp | hemp
          · rw [if_pos hemp] at hc1; cases hc1
          · rw [if_neg hemp] at hc1; exact List.mem_singleton.mp hc1
        rw [this]; exact hcur
      · cases sub with
        | some subChunks =>
          dsimp only at hc2
          rcases List.mem_append.mp hc2 with hc3 | hc4
          · exact hp.2 subChunks rfl c hc3
          · exact ih [] hrest (by simp) c hc4
        | none =>
          dsimp only at hc2
          exact ih s hrest (hp.1 rfl) c hc2

theorem forceSliceAux_bound (cs : Nat) :
    ∀ (fuel : Nat) (l : List Char), l.length ≤ fuel →
      ∀ c ∈ forceSliceAux cs fuel l, c.length ≤ cs := by
  intro fuel
  induction fuel with
  | zero =>
    intro l hl c hc
    have : l = [] := List.length_eq_zero.mp (by omega)
    subst this
    cases hc
  | succ fuel ih =>
    intro l hl c hc
    cases l with
    | nil => cases hc
    | cons a rest =>
      simp only [forceSliceAux] at hc
      split at hc
      · cases hc
      · rcases List.mem_cons.mp hc with rfl | hc2
        · rw [List.length_take]
          omega
        · exact ih _ (by simp only [List.length_drop, List.length_cons] at hl ⊢; omega) c hc2

theorem forceSlice_bound (cs : Nat) (s : List Char) :
    ∀ c ∈ forceSlice cs s, c.length ≤ cs :=
  forceSliceAux_bound cs s.length s (Nat.le_refl _)

theorem splitStep_bound (cfg : SplitterConfig)
    (hov : cfg.chunkOverlap = 0) (hcs : 0 < cfg.chunkSize)
    (recurse : List (List Char) → List Char → List (List Char))
    (seps : List (List Char)) (text : List Char)
    (hrec : ∀ s1 rest2, (findSep text seps).2 = s1 :: rest2 →
      ∀ (s : List Char), ∀ c ∈ recurse (s1 :: rest2) s, c.length ≤ cfg.chunkSize) :
    ∀ c ∈ splitStep cfg recurse seps text, c.length ≤ cfg.chunkSize := by
  intro c hc
  unfold splitStep at hc
  rw [if_neg (by omega)] at hc
  refine mergeLoop_bound cfg.chunkSize _ [] ?_ (by simp) c hc
  intro p hp
  rcases List.mem_map.mp hp with ⟨s, hs, rfl⟩
  dsimp only
  constructor
  · intro hn
    by_cases hlen : cfg.chunkSize < s.length
    · rw [if_pos hlen] at hn; cases hn
    · omega
  · intro sub hsub
    by_cases hlen : cfg.chunkSize < s.length
    · rw [if_pos hlen] at hsub
      cases hsub
      cases hns : (findSep text seps).2 with
      | nil =>
        dsimp only
        exact forceSlice_bound cfg.chunkSize s
      | cons s1 rest2 =>
        dsimp only
        exact hrec s1 rest2 hns s
    · rw [if_neg hlen] at hsub; cases hsub

theorem splitRecursive_bound (cfg : SplitterConfig)
    (hov : cfg.chunkOverlap = 0) (hcs : 0 < cfg.chunkSize) :
    ∀ (fuel : Nat) (seps : List (List Char)) (text : List Char),
      ∀ c ∈ splitRecursive cfg fuel seps text, c.length ≤ cfg.chunkSize := by
  intro fuel
  induction fuel with
  | zero =>
    intro seps text c hc
    simp only [splitRecursive] at hc
    exact splitStep_bound cfg hov hcs _ seps text
      (fun s1 rest2 hns s c2 hc2 => forceSlice_bound cfg.chunkSize s c2 hc2) c hc
  | succ fuel ih =>
    intro seps text c hc
    simp only [splitRecursive] at hc
    exact splitStep_bound cfg hov hcs _ seps text
      (fun s1 rest2 hns s => ih (s1 :: rest2) s) c hc

/-- C3 as amended.  For `chunk_overlap = 0`, `chunk_size > 0`, and a
non-empty text containing no fenced code block, every chunk returned by
`split_text` has length at most `chunk_size` (in particular the forced
character-level fallback slices are at most — the final remainder strictly
less than — `chunk_size`). -/
theorem claim_C3_amended (cfg : SplitterConfig) (text : List Char)
    (hov : cfg.chunkOverlap = 0) (hcs : 0 < cfg.chunkSize)
    (hnf : fenceMatches text = []) (hne : text ≠ [])
    (chunks : List (List Char)) (h : splitText cfg text = Except.ok chunks) :
    ∀ c ∈ chunks, c.length ≤ cfg.chunkSize := by
  unfold splitText at h
  rw [if_neg hne, hnf] at h
  simp only [List.enum_nil, List.foldl_nil] at h
  cases h
  intro c hc
  rcases List.mem_filterMap.mp hc with ⟨c0, hc0, hsome⟩
  split at hsome
  · cases hsome
  · cases hsome
    exact splitRecursive_bound cfg hov hcs cfg.separators.length cfg.separators text c hc0

/-- C3 amended witness: `chunk_size = 3, overlap = 0` on `"ab cd"`, first
returned chunk. -/
theorem claim_C3_amended_witness :
    ("ab ").data.length ≤ (⟨3, 0, true, defaultSeparators⟩ : SplitterConfig).chunkSize :=
  claim_C3_amended ⟨3, 0, true, defaultSeparators⟩ (("ab cd").data) rfl (by decide)
    (by decide) (by decide) [("ab ").data, ("cd").data] (by decide)
    (("ab ").data) (by decide)

/-! ## Claim C7: round-trip law -/

theorem splitOnAux_ne_nil (sep : List Char) :
    ∀ (fuel : Nat) (l acc : List Char), splitOnAux sep fuel l acc ≠ [] := by
  intro fuel
  induction fuel with
  | zero =>
    intro l acc
    cases l <;> simp [splitOnAux]
  | succ fuel ih =>
    intro l acc
    cases l with
    | nil => simp [splitOnAux]
    | cons c rest =>
      simp only [splitOnAux]
      split
      · simp
      · exact ih rest (c :: acc)

theorem joinSep_cons (sep a : List Char) (xs : List (List Char)) (h : xs ≠ []) :
    joinSep sep (a :: xs) = a ++ sep ++ joinSep sep xs := by
  cases xs with
  | nil => exact absurd rfl h
  | cons y ys => rfl

theorem joinSep_splitOnAux (sep : List Char) :
    ∀ (fuel : Nat) (l acc : List Char), l.length ≤ fuel →
      joinSep sep (splitOnAux sep fuel l acc) = acc.reverse ++ l := by
  intro fuel
  induction fuel with
  | zero =>
    intro l acc hl
    have : l = [] := List.length_eq_zero.mp (by omega)
    subst this
    simp [splitOnAux, joinSep]
  | succ fuel ih =>
    intro l acc hl
    cases l with
    | nil => simp [splitOnAux, joinSep]
    | cons ch rest =>
      simp only [splitOnAux]
      split
      · rename_i hpre
        rw [joinSep_cons sep _ _ (splitOnAux_ne_nil sep fuel _ [])]
        have hsep : 0 < sep.length := List.length_pos.mpr hpre.1
        rw [ih ((ch :: rest).drop sep.length) []
          (by simp only [List.length_drop, List.length_cons] at hl ⊢; omega)]
        obtain ⟨t, ht⟩ := List.isPrefixOf_iff_prefix.mp hpre.2
        rw [← ht, List.drop_left]
        simp
      · rw [ih rest (ch :: acc) (by simp only [List.length_cons] at hl; omega)]
        simp

theorem joinSep_splitOn (sep l : List Char) : joinSep sep (splitOn sep l) = l := by
  unfold splitOn
  simpa using joinSep_splitOnAux sep l.length l [] (Nat.le_refl _)

theorem join_appendSepButLast (sep : List Char) :
    ∀ (parts : List (List Char)), (appendSepButLast sep parts).flatten = joinSep sep parts
  | [] => rfl
  | [x] => by simp [appendSepButLast, joinSep]
  | x :: y :: xs => by
    rw [joinSep_cons sep x (y :: xs) (by simp)]
    simp [appendSepButLast, join_appendSepButLast sep (y :: xs), List.append_assoc]

theorem splitWithSep_join (cfg : SplitterConfig) (hks : cfg.keepSeparator = true)
    (text sep : List Char) : (splitWithSep cfg text sep).flatten = text := by
  by_cases hsep : sep = []
  · simp [splitWithSep, hsep]
  · simp [splitWithSep, hsep, hks, join_appendSepButLast, joinSep_splitOn]

theorem forceSliceAux_join (cs : Nat) (hcs : 0 < cs) :
    ∀ (fuel : Nat) (l : List Char), l.length ≤ fuel → (forceSliceAux cs fuel l).flatten = l := by
  intro fuel
  induction fuel with
  | zero =>
    intro l hl
    have : l = [] := List.length_eq_zero.mp (by omega)
    subst this
    rfl
  | succ fuel ih =>
    intro l hl
    cases l with
    | nil => rfl
    | cons a rest =>
      simp only [forceSliceAux]
      rw [if_neg (by omega)]
      simp only [List.flatten_cons]
      rw [ih ((a :: rest).drop cs)
        (by simp only [List.length_drop, List.length_cons] at hl ⊢; omega)]
      exact List.take_append_drop cs (a :: rest)

theorem forceSlice_join (cs : Nat) (hcs : 0 < cs) (s : List Char) :
    (forceSlice cs s).flatten = s :=
  forceSliceAux_join cs hcs s.length s (Nat.le_refl _)

theorem mergeLoop_join (cs : Nat) :
    ∀ (annotated : List (List Char × Option (List (List Char)))) (current : List Char),
      (∀ p ∈ annotated, ∀ sub, p.2 = some sub → sub.flatten = p.1) →
      (mergeLoop cs annotated current).flatten = current ++ (annotated.map Prod.fst).flatten := by
  intro annotated
  induction annotated with
  | nil =>
    intro current _
    simp only [mergeLoop]
    split
    · rename_i hemp; simp [hemp]
    · simp
  | cons p rest ih =>
    obtain ⟨s, sub⟩ := p
    intro current hann
    have hp := hann (s, sub) (List.mem_cons_self _ _)
    have hrest : ∀ q ∈ rest, ∀ sub2, q.2 = some sub2 → sub2.flatten = q.1 :=
      fun q hq => hann q (List.mem_cons_of_mem _ hq)
    simp only [mergeLoop]
    split
    · rw [ih (current ++ s) hrest]
      simp [List.append_assoc]
    · have hclosed : (if current = [] then ([] : List (List Char)) else [current]).flatten
          = current := by
        split
        · rename_i hemp; simp [hemp]
        · simp
      cases sub with
      | some subChunks =>
        dsimp only
        simp only [List.flatten_append]
        rw [hclosed, ih [] hrest, hp subChunks rfl]
        simp [List.append_assoc]
      | none =>
        dsimp only
        simp only [List.flatten_append]
        rw [hclosed, ih s hrest]
        simp [List.append_assoc]

theorem map_singleton_join : ∀ (l : List Char), (l.map (fun c => [c])).flatten = l
  | [] => rfl
  | c :: rest => by
    simp only [List.map_cons, List.flatten_cons]
    rw [map_singleton_join rest]
    rfl

theorem splitStep_join (cfg : SplitterConfig)
    (hov : cfg.chunkOverlap = 0) (hks : cfg.keepSeparator = true) (hcs : 0 < cfg.chunkSize)
    (recurse : List (List Char) → List Char → List (List Char))
    (seps : List (List Char)) (text : List Char)
    (hrec : ∀ s1 rest2, (findSep text seps).2 = s1 :: rest2 →
      ∀ (s : List Char), (recurse (s1 :: rest2) s).flatten = s) :
    (splitStep cfg recurse seps text).flatten = text := by
  unfold splitStep
  rw [if_neg (by omega)]
  rw [mergeLoop_join cfg.chunkSize _ []]
  · simp only [List.nil_append, List.map_map]
    have hfst : ∀ (splits : List (List Char)) (g : List Char → Option (List (List Char))),
        splits.map (Prod.fst ∘ fun s => (s, g s)) = splits := by
      intro splits g
      have hcomp : (Prod.fst ∘ fun s => (s, g s)) = id := rfl
      rw [hcomp, List.map_id]
    rw [hfst]
    split
    · exact map_singleton_join text
    · exact splitWithSep_join cfg hks text _
  · intro p hp sub hsub
    rcases List.mem_map.mp hp with ⟨s, hs, rfl⟩
    dsimp only at hsub ⊢
    by_cases hlen : cfg.chunkSize < s.length
    · rw [if_pos hlen] at hsub
      cases hsub
      cases hns : (findSep text seps).2 with
      | nil =>
        dsimp only
        exact forceSlice_join cfg.chunkSize hcs s
      | cons s1 rest2 =>
        dsimp only
        exact hrec s1 rest2 hns s
    · rw [if_neg hlen] at hsub
      cases hsub

theorem splitRecursive_join (cfg : SplitterConfig)
    (hov : cfg.chunkOverlap = 0) (hks : cfg.keepSeparator = true) (hcs : 0 < cfg.chunkSize) :
    ∀ (fuel : Nat) (seps : List (List Char)) (text : List Char),
      (splitRecursive cfg fuel seps text).flatten = text := by
  intro fuel
  induction fuel with
  | zero =>
    intro seps text
    simp only [splitRecursive]
    exact splitStep_join cfg hov hks hcs _ seps text
      (fun s1 rest2 hns s => forceSlice_join cfg.chunkSize hcs s)
  | succ fuel ih =>
    intro seps text
    simp only [splitRecursive]
    exact splitStep_join cfg hov hks hcs _ seps text
      (fun s1 rest2 hns s => ih (s1 :: rest2) s)

/-- C7.  Round-trip law: for every non-empty text containing no fenced code
block (no match of the code-fence pattern), splitting with `chunk_overlap =
0` and `keep_separator` enabled yields chunks whose in-order concatenation
reconstructs the original text exactly, up to the chunks that `split_text`
then drops for being empty or whitespace-only. -/
theorem claim_C7 (cfg : SplitterConfig) (text : List Char)
    (hov : cfg.chunkOverlap = 0) (hks : cfg.keepSeparator = true) (hcs : 0 < cfg.chunkSize)
    (hnf : fenceMatches text = []) (hne : text ≠ []) :
    ∃ chunks : List (List Char),
      chunks.flatten = text ∧
      splitText cfg text =
        Except.ok (chunks.filterMap (fun c => if pyStrip c = [] then none else some c)) := by
  refine ⟨splitRecursive cfg cfg.separators.length cfg.separators text,
    splitRecursive_join cfg hov hks hcs cfg.separators.length cfg.separators text, ?_⟩
  unfold splitText
  rw [if_neg hne, hnf]
  simp only [List.enum_nil, List.foldl_nil]

/-- C7 witness: `chunk_size = 3, overlap = 0, keep_separator` on `"ab cd"`. -/
theorem claim_C7_witness :
    ∃ chunks : List (List Char),
      chunks.flatten = ("ab cd").data ∧
      splitText ⟨3, 0, true, defaultSeparators⟩ (("ab cd").data) =
        Except.ok (chunks.filterMap (fun c => if pyStrip c = [] then none else some c)) :=
  claim_C7 ⟨3, 0, true, defaultSeparators⟩ (("ab cd").data) rfl rfl (by decide)
    (by decide) (by decide)

/-! ## Claim C6: fenced code blocks survive splitting intact (code bug) -/

/-- C6 evidence of the code bug.  The splitter's own documentation and the
fence-protection mechanism promise that a fenced code block is never cut,
but when the placeholder token itself must be split (here `chunk_size = 5 <
16`, the placeholder length), the character-level tier slices through the
placeholder; restoration then finds no intact placeholder, and the fenced
block `"```a```"` appears in **no** output chunk at all (each output chunk is
a fragment of the placeholder text): with the valid configuration
`chunk_size = 5, overlap = 0`, `split_text("```a```")` returns the four
placeholder fragments, none of which contains the block. -/
theorem claim_C6_bug :
    splitText ⟨5, 0, true, defaultSeparators⟩ (("```a```").data) =
      Except.ok [("__COD").data, ("E_BLO").data, ("CK_0_").data, ("_").data] ∧
    ([("__COD").data, ("E_BLO").data, ("CK_0_").data, ("_").data].all
      (fun chunk => ! containsSeq (("```a```").data) chunk)) = true := by
  decide

end RagMcp
